import Mathlib

/-!
Shallow embedding of `lib/trace.js`, joi's schema coverage tracer.

Schema nodes are opaque JS objects used as `Map` keys; we model node identity
by a `Nat` id and the schema graph as a function `Nat → Node` giving each
node's flags, declared rules, declared valid/invalid literal sets, and its
child edges (the `{source, name, path}` enumeration contexts produced by
`$_modify`).  Literal values are modelled as `Nat`.

JS collections are modelled by their observable behaviour at the call sites:
* `Map` (insertion-ordered, keyed by object identity) — association list
  keyed by `Nat`, new keys appended at the end;
* `Set` of primitive values (`log.valid` / `log.invalid`) — duplicate-free
  list in insertion order (`setAdd`);
* `Set` of path arrays (`log.paths`) — every `paths.add` receives a freshly
  allocated array (`path.concat(id)`), so reference equality never
  deduplicates and the set behaves as a plain list in insertion order;
* plain object used as a string-keyed map (`log.rule`) — association list
  keyed by `String`.

`Array.prototype.concat` spreads array arguments, so a two-element id
`[name, path[1]]` contributes two consecutive path segments (`segsOfId`).
-/

namespace Trace

/-- One element of an accumulated path array: a string, a number, or the JS
`undefined` that `path[1]` yields when the context path is too short. -/
inductive Seg where
  | str (s : String)
  | num (n : Nat)
  | undef
deriving DecidableEq, Repr

/-- An accumulated path from the root to a node (flattened by `concat`). -/
abbrev Path := List Seg

/-- One `{subNode, source, name, path}` child context as enumerated by the
schema's `$_modify({each})` capability. -/
structure Edge where
  child : Nat
  source : String
  name : String
  path : List Nat
deriving DecidableEq, Repr

/-- The per-node data that `trace.js` reads off a schema object: `_flags.id`,
`_flags._key`, whether `_flags.default` / `_flags.failover` are declared
(`!== undefined`), `_rules.map(r => r.name)`, `_valids._set`,
`_invalids._set`, and the children enumerated by `$_modify`.  The id and key
flags are non-empty strings when declared (the builder API asserts this), so
JS truthiness coincides with `Option` presence. -/
structure Node where
  flagId : Option String := none
  flagKey : Option String := none
  flagDefault : Bool := false
  flagFailover : Bool := false
  rules : List String := []
  valids : Option (List Nat) := none
  invalids : Option (List Nat) := none
  children : List Edge := []
deriving DecidableEq, Repr

/-- A schema graph: node id to node data. -/
abbrev Graph := Nat → Node

/-- Result of `internals.id`: either a plain string or the two-element array
`[name, path[1]]` returned for `terms` sources. -/
inductive IdResult where
  | str (s : String)
  | pair (s : String) (n : Option Nat)
deriving DecidableEq, Repr

/-- `internals.id(schema, { source, name, path })`. -/
def jsId (schema : Node) (source : String) (name : String) (path : List Nat) :
    IdResult :=
  match schema.flagId with
  | some i => .str i
  | none =>
    match schema.flagKey with
    | some k => .str k
    | none =>
      let nm := "@" ++ name
      if source = "terms" then .pair nm path[1]? else .str nm

/-- The path segments contributed by `path.concat(id)`: `concat` spreads an
array id into its elements. -/
def segsOfId : IdResult → List Seg
  | .str s => [.str s]
  | .pair s (some n) => [.str s, .num n]
  | .pair s none => [.str s, .undef]

/-- One coverage log (`internals.Store._scan`'s per-node record). -/
structure Log where
  paths : List Path
  entry : Bool
  rule : List (String × Nat)
  valid : List Nat
  invalid : List Nat
deriving DecidableEq, Repr

/-- The fresh log created when a node is first scanned. -/
def Log.init : Log :=
  { paths := [], entry := false, rule := {}, valid := [], invalid := [] }

/-- `Store._logs`: insertion-ordered map from node identity to its log. -/
abbrev Logs := List (Nat × Log)

/-- `Map.prototype.get` on an insertion-ordered association list. -/
def lookupKey {β : Type} (a : Nat) : List (Nat × β) → Option β
  | [] => none
  | (k, b) :: rest => if a = k then some b else lookupKey a rest

/-- The keys of an association list, in insertion order. -/
def keys {β : Type} (l : List (Nat × β)) : List Nat :=
  l.map Prod.fst

/-- In-place mutation of the log stored under a key (JS mutates the log
object held by the map; other entries are untouched). -/
def updateLog (logs : Logs) (sid : Nat) (f : Log → Log) : Logs :=
  logs.map fun p => if p.1 = sid then (p.1, f p.2) else p

/-- `_scan`'s get-or-create: a missing key is `Map.set` at the end. -/
def ensureLog (logs : Logs) (sid : Nat) : Logs :=
  if (lookupKey sid logs).isSome then logs else logs ++ [(sid, Log.init)]

/-- `internals.codes`: result kind to outcome bit (unknown kinds OR in 0, as
`x |= undefined` leaves `x` unchanged). -/
def codes (result : String) : Nat :=
  if result = "error" then 1
  else if result = "value" then 2
  else if result = "full" then 3
  else 0

/-- `internals.labels`: outcome mask to gap label; mask 3 has no label
(fully covered), modelled as `none`. -/
def labels (mask : Nat) : Option String :=
  if mask = 0 then some "never used"
  else if mask = 1 then some "always error"
  else if mask = 2 then some "always pass"
  else none

/-- `Set.prototype.add` for primitive values: append unless present. -/
def setAdd (l : List Nat) (v : Nat) : List Nat :=
  if v ∈ l then l else l ++ [v]

/-- `new Set(iterable)`: insert every element in order, deduplicating. -/
def jsSetOf (l : List Nat) : List Nat :=
  l.foldl setAdd []

/-- `log.rule[name] || 0`. -/
def ruleGet (r : List (String × Nat)) (name : String) : Nat :=
  match r with
  | [] => 0
  | (k, m) :: rest => if name = k then m else ruleGet rest name

/-- `log.rule[name] = log.rule[name] || 0; log.rule[name] |= code`. -/
def ruleOr (r : List (String × Nat)) (name : String) (code : Nat) :
    List (String × Nat) :=
  match r with
  | [] => [(name, code)]
  | (k, m) :: rest =>
    if name = k then (k, m ||| code) :: rest else (k, m) :: ruleOr rest name code

/-- `Store.prototype.entry(schema)`. -/
def Store.entry (logs : Logs) (sid : Nat) : Logs :=
  updateLog logs sid fun l => { l with entry := true }

/-- `Store.prototype.log(source, name, result, schema)`; every call site
passes `source = 'rule'`, so the mutation targets the `rule` map. -/
def Store.log (logs : Logs) (name : String) (result : String) (sid : Nat) :
    Logs :=
  updateLog logs sid fun l => { l with rule := ruleOr l.rule name (codes result) }

/-- `Store.prototype.value(source, value, schema)`; call sites pass
`source ∈ {'valid', 'invalid'}`, selecting the observed-value set. -/
def Store.value (logs : Logs) (source : String) (v : Nat) (sid : Nat) : Logs :=
  updateLog logs sid fun l =>
    if source = "valid" then { l with valid := setAdd l.valid v }
    else if source = "invalid" then { l with invalid := setAdd l.invalid v }
    else l

/-- The non-recursive head of `Store.prototype._scan`: get-or-create the
node's log, then record the current path when it is non-empty. -/
def coreStep (logs : Logs) (sid : Nat) (path : Path) : Logs :=
  let logs1 := ensureLog logs sid
  if path = [] then logs1
  else updateLog logs1 sid fun l => { l with paths := l.paths ++ [path] }

/-- `Store.prototype._scan(schema, _path)`.  The JS recursion terminates only
on enumeration DAGs; the embedding adds a fuel bound that is irrelevant
whenever it exceeds the graph's reachable depth. -/
def scan (g : Graph) (fuel : Nat) (sid : Nat) (path : Path) (logs : Logs) :
    Logs :=
  match fuel with
  | 0 => coreStep logs sid path
  | fuel' + 1 =>
    (g sid).children.foldl
      (fun acc e =>
        scan g fuel' e.child
          (path ++ segsOfId (jsId (g e.child) e.source e.name e.path)) acc)
      (coreStep logs sid path)

/-- `new internals.Store(schema)`: a full static scan from the root. -/
def scanLogs (g : Graph) (fuel : Nat) (root : Nat) : Logs :=
  scan g fuel root [] []

/-- `internals.sub(paths, skipped)`: does any of the node's paths extend
(or equal) a skipped path?  `DeepEqual(path.slice(0, skip.length), skip)`. -/
def subMatch (paths : List Path) (skipped : List Path) : Bool :=
  paths.any fun p => skipped.any fun sk => decide (p.take sk.length = sk)

/-- The rule names checked by `report`: declared rule names plus the
pseudo-rules `default` and `failover` when those flags are declared. -/
def rulesList (node : Node) : List String :=
  node.rules ++ (if node.flagDefault then ["default"] else []) ++
    (if node.flagFailover then ["failover"] else [])

/-- One entry of the `missing` list built by `Tracer.prototype.report`. -/
inductive Item where
  | neverReached (paths : List Path)
  | values (status : List Nat) (rule : String)
  | ruleGap (rule : String) (status : String) (paths : Option (List Path))
deriving DecidableEq, Repr

/-- `if (log.paths.size) report.paths = [...log.paths]`. -/
def pathsOpt (l : Log) : Option (List Path) :=
  if l.paths = [] then none else some l.paths

/-- The gap produced for one rule name of a reached node, if any. -/
def ruleItem (l : Log) (name : String) : Option Item :=
  (labels (ruleGet l.rule name)).map fun st => .ruleGap name st (pathsOpt l)

/-- `for (const value of log[type]) values.delete(value)`: delete every
observed value from the copied declared set. -/
def deleteAll (observed : List Nat) (values : List Nat) : List Nat :=
  observed.foldl (fun vs v => vs.erase v) values

/-- The missing-values gap of one category (`valids` or `invalids`):
copy the declared set, delete each observed value, and report the rest
when non-empty. -/
def valueItem (declared : Option (List Nat)) (observed : List Nat)
    (ruleName : String) : List Item :=
  match declared with
  | none => []
  | some ds =>
    let values := deleteAll observed (jsSetOf ds)
    if values = [] then [] else [.values values ruleName]

/-- The value gaps of a reached node, `valid` category then `invalid`. -/
def valueItems (node : Node) (log : Log) : List Item :=
  valueItem node.valids log.valid "valids" ++
    valueItem node.invalids log.invalid "invalids"

/-- The per-store loop of `Tracer.prototype.report`: walk the logs in
insertion order carrying the `skipped` path list. -/
def reportLoop (g : Graph) : List (Nat × Log) → List Path → List Item
  | [], _ => []
  | (sid, log) :: rest, skipped =>
    if subMatch log.paths skipped then reportLoop g rest skipped
    else if !log.entry then
      .neverReached log.paths :: reportLoop g rest (skipped ++ log.paths)
    else
      valueItems (g sid) log ++ (rulesList (g sid)).filterMap (ruleItem log) ++
        reportLoop g rest skipped

/-- The `missing` list computed for one store. -/
def reportMissing (g : Graph) (logs : Logs) : List Item :=
  reportLoop g logs []

/-- Modelled from the spec: `Errors.path` (`lib/errors.js` is not part of the
sources here) renders a Path as a dot-style human string. -/
def errorsPath (p : Path) : String :=
  String.intercalate "." (p.map fun s =>
    match s with
    | .str t => t
    | .num n => toString n
    | .undef => "undefined")

/-- `internals.message(item)`; array statuses are stringified with commas as
JS template literals do.  `item.paths[0]` on an empty paths array is fed to
the spec-modelled `errorsPath` as the empty path. -/
def message : Item → String
  | .neverReached ps => errorsPath (ps.headD []) ++ " (never reached)"
  | .values vals rule =>
    rule ++ " (" ++ String.intercalate "," (vals.map toString) ++ ")"
  | .ruleGap rule status pso =>
    (match pso with
     | some ps => errorsPath (ps.headD []) ++ ":"
     | none => "") ++ rule ++ " (" ++ status ++ ")"

/-- One registry entry: source location captured at registration plus the
store built by the static scan. -/
structure SchemaEntry where
  filename : String
  line : Nat
  store : Logs
deriving DecidableEq, Repr

/-- `Tracer._schemas`: insertion-ordered map from schema root to entry. -/
abbrev Tracer := List (Nat × SchemaEntry)

/-- `Tracer.prototype._register(schema)`, threading the registry state. -/
def register (g : Graph) (fuel : Nat) (tr : Tracer) (root : Nat)
    (filename : String) (line : Nat) : Logs × Tracer :=
  match lookupKey root tr with
  | some e => (e.store, tr)
  | none =>
    let store := scanLogs g fuel root
    (store, tr ++ [(root, ⟨filename, line, store⟩)])

/-- One top-level coverage record. -/
structure GapRecord where
  filename : String
  line : Nat
  missing : List Item
  severity : String
  message : String
deriving DecidableEq, Repr

/-- `if (file && file !== filename) continue`. -/
def matchesFile (file : Option String) (filename : String) : Bool :=
  match file with
  | none => true
  | some f => f = filename

/-- The record pushed for one store, when it has gaps. -/
def recordOf (g : Graph) (filename : String) (line : Nat) (store : Logs) :
    Option GapRecord :=
  let missing := reportMissing g store
  if missing = [] then none
  else
    some ⟨filename, line, missing, "error",
      "Schema missing tests for " ++
        String.intercalate ", " (missing.map message)⟩

/-- `Tracer.prototype.report(file)`: `none` models the `null` return. -/
def report (g : Graph) (tr : Tracer) (file : Option String) :
    Option (List GapRecord) :=
  let coverage := tr.filterMap fun pr =>
    if matchesFile file pr.2.filename then
      recordOf g pr.2.filename pr.2.line pr.2.store
    else none
  if coverage = [] then none else some coverage

/-- `report` with the registry state threaded explicitly.  The source
mutates only function-local data (`coverage`, `missing`, `skipped`, and the
`new Set(set._set)` copy that `values.delete` acts on), so the registry and
every store come back unchanged. -/
def reportRun (g : Graph) (tr : Tracer) (file : Option String) :
    Option (List GapRecord) × Tracer :=
  (report g tr file, tr)

/-- Structural reachability through the enumeration capability: the path
accumulated from `s` to a node, together with the number of edges used. -/
inductive ReachesFrom (g : Graph) : Nat → Nat → Path → Nat → Prop
  | refl (s : Nat) : ReachesFrom g s s [] 0
  | head {s sid : Nat} {p : Path} {n : Nat} (e : Edge)
      (he : e ∈ (g s).children)
      (h : ReachesFrom g e.child sid p n) :
      ReachesFrom g s sid
        (segsOfId (jsId (g e.child) e.source e.name e.path) ++ p) (n + 1)

/-- The recorded paths of a node's log (empty when the node has no log). -/
def pathsOf (logs : Logs) (sid : Nat) : List Path :=
  match lookupKey sid logs with
  | some l => l.paths
  | none => []

/-- A two-level chain `0 → 1 → 2` (object field `a` holding field `b`). -/
def gNest : Graph := fun n =>
  if n = 0 then { children := [⟨1, "keys", "a", []⟩] }
  else if n = 1 then { children := [⟨2, "keys", "b", []⟩] }
  else {}

/-- A diamond: node `3` is shared by the two routes `0 → 1 → 3` and
`0 → 2 → 3`. -/
def gDiamond : Graph := fun n =>
  if n = 0 then { children := [⟨1, "keys", "a", []⟩, ⟨2, "keys", "b", []⟩] }
  else if n = 1 then { children := [⟨3, "keys", "c", []⟩] }
  else if n = 2 then { children := [⟨3, "keys", "c", []⟩] }
  else {}

/-- Node `1` carries an explicit id flag and is shared under the two keys
`a` and `b` of the root, so both routes accumulate the same path `[x]`. -/
def gDup : Graph := fun n =>
  if n = 0 then { children := [⟨1, "keys", "a", []⟩, ⟨1, "keys", "b", []⟩] }
  else if n = 1 then { flagId := some "x" }
  else {}

/-! ### Association-list lemmas -/

theorem lookupKey_append_of_none {β : Type} (l l' : List (Nat × β)) (a : Nat)
    (h : lookupKey a l = none) : lookupKey a (l ++ l') = lookupKey a l' := by
  induction l with
  | nil => rfl
  | cons p rest ih =>
    obtain ⟨k, b⟩ := p
    by_cases hk : a = k
    · simp [lookupKey, hk] at h
    · simp only [lookupKey, if_neg hk] at h ⊢
      exact ih h

theorem lookupKey_append_of_some {β : Type} (l l' : List (Nat × β)) (a : Nat)
    (b : β) (h : lookupKey a l = some b) : lookupKey a (l ++ l') = some b := by
  induction l with
  | nil => simp [lookupKey] at h
  | cons p rest ih =>
    obtain ⟨k, c⟩ := p
    by_cases hk : a = k
    · simp only [lookupKey, if_pos hk] at h ⊢
      exact h
    · simp only [lookupKey, if_neg hk] at h ⊢
      exact ih h

theorem lookupKey_eq_none_iff {β : Type} (l : List (Nat × β)) (a : Nat) :
    lookupKey a l = none ↔ a ∉ keys l := by
  induction l with
  | nil => simp [lookupKey, keys]
  | cons p rest ih =>
    obtain ⟨k, b⟩ := p
    by_cases hk : a = k
    · simp [lookupKey, keys, hk]
    · simp [lookupKey, keys, hk, ih]

theorem updateLog_cons (k : Nat) (l : Log) (rest : Logs) (sid : Nat)
    (f : Log → Log) :
    updateLog ((k, l) :: rest) sid f =
      (if k = sid then (k, f l) else (k, l)) :: updateLog rest sid f := rfl

theorem lookupKey_updateLog (logs : Logs) (sid : Nat) (f : Log → Log)
    (a : Nat) :
    lookupKey a (updateLog logs sid f) =
      if a = sid then (lookupKey a logs).map f else lookupKey a logs := by
  induction logs with
  | nil => simp [updateLog, lookupKey]
  | cons p rest ih =>
    obtain ⟨k, l⟩ := p
    rw [updateLog_cons]
    by_cases hk : k = sid
    · rw [if_pos hk]
      by_cases ha : a = k
      · simp [lookupKey, ha, hk]
      · simp [lookupKey, ha, ih]
    · rw [if_neg hk]
      by_cases ha : a = k
      · have has : ¬a = sid := fun h => hk (ha.symm.trans h)
        simp [lookupKey, ha, has, hk]
      · simp [lookupKey, ha, ih]

theorem keys_updateLog (logs : Logs) (sid : Nat) (f : Log → Log) :
    keys (updateLog logs sid f) = keys logs := by
  induction logs with
  | nil => rfl
  | cons p rest ih =>
    obtain ⟨k, l⟩ := p
    by_cases hk : k = sid <;> simp_all [updateLog, keys]

theorem lookupKey_ensureLog (logs : Logs) (sid a : Nat) :
    lookupKey a (ensureLog logs sid) =
      if a = sid then some ((lookupKey a logs).getD Log.init)
      else lookupKey a logs := by
  unfold ensureLog
  by_cases hs : (lookupKey sid logs).isSome
  · rw [if_pos hs]
    by_cases ha : a = sid
    · subst ha
      obtain ⟨l, hl⟩ := Option.isSome_iff_exists.mp hs
      simp [hl]
    · simp [ha]
  · rw [if_neg hs]
    rw [Option.not_isSome_iff_eq_none] at hs
    by_cases ha : a = sid
    · subst ha
      rw [lookupKey_append_of_none _ _ _ hs]
      simp [lookupKey, hs]
    · by_cases hb : (lookupKey a logs).isSome
      · obtain ⟨l, hl⟩ := Option.isSome_iff_exists.mp hb
        rw [lookupKey_append_of_some _ _ _ _ hl]
        simp [ha, hl]
      · rw [Option.not_isSome_iff_eq_none] at hb
        rw [lookupKey_append_of_none _ _ _ hb]
        simp [ha, hb, lookupKey]

theorem keys_ensureLog (logs : Logs) (sid : Nat) :
    keys (ensureLog logs sid) =
      if (lookupKey sid logs).isSome then keys logs else keys logs ++ [sid] := by
  unfold ensureLog
  by_cases hs : (lookupKey sid logs).isSome <;> simp [hs, keys]

/-! ### `coreStep` lemmas -/

theorem pathsOf_coreStep (logs : Logs) (sid : Nat) (path : Path) (a : Nat) :
    pathsOf (coreStep logs sid path) a =
      if a = sid then
        (if path = [] then pathsOf logs sid else pathsOf logs sid ++ [path])
      else pathsOf logs a := by
  unfold coreStep pathsOf
  by_cases hp : path = []
  · simp only [if_pos hp, lookupKey_ensureLog]
    by_cases ha : a = sid
    · subst ha
      cases h : lookupKey a logs <;> simp [h, Log.init]
    · simp [ha]
  · simp only [if_neg hp, lookupKey_updateLog, lookupKey_ensureLog]
    by_cases ha : a = sid
    · subst ha
      cases h : lookupKey a logs <;> simp [h, Log.init]
    · simp [ha]

theorem coreStep_eq (logs : Logs) (sid : Nat) (path : Path) :
    coreStep logs sid path =
      if path = [] then ensureLog logs sid
      else updateLog (ensureLog logs sid) sid
        (fun l => { l with paths := l.paths ++ [path] }) := rfl

theorem lookupKey_coreStep_isSome (logs : Logs) (sid : Nat) (path : Path)
    (a : Nat) (h : (lookupKey a logs).isSome) :
    (lookupKey a (coreStep logs sid path)).isSome := by
  rw [coreStep_eq]
  by_cases hp : path = []
  · rw [if_pos hp, lookupKey_ensureLog]
    by_cases ha : a = sid <;> simp [ha, h]
  · rw [if_neg hp, lookupKey_updateLog, lookupKey_ensureLog]
    by_cases ha : a = sid <;> simp [ha, h]

theorem keys_coreStep (logs : Logs) (sid : Nat) (path : Path) :
    keys (coreStep logs sid path) =
      if (lookupKey sid logs).isSome then keys logs else keys logs ++ [sid] := by
  rw [coreStep_eq]
  by_cases hp : path = []
  · rw [if_pos hp, keys_ensureLog]
  · rw [if_neg hp, keys_updateLog, keys_ensureLog]

theorem keys_coreStep_nodup (logs : Logs) (sid : Nat) (path : Path)
    (h : (keys logs).Nodup) : (keys (coreStep logs sid path)).Nodup := by
  rw [keys_coreStep]
  by_cases hs : (lookupKey sid logs).isSome = true
  · rw [if_pos hs]
    exact h
  · rw [if_neg hs]
    have hn : lookupKey sid logs = none := by
      cases h' : lookupKey sid logs
      · rfl
      · exact absurd (by simp [h']) hs
    rw [lookupKey_eq_none_iff] at hn
    simp [List.nodup_append, h, hn]

/-! ### Scan lemmas -/

theorem foldl_preserve {α : Type} {P : Logs → Prop} (step : Logs → α → Logs)
    (hstep : ∀ logs a, P logs → P (step logs a)) :
    ∀ (l : List α) (logs : Logs), P logs → P (l.foldl step logs) := by
  intro l
  induction l with
  | nil => intro logs h; exact h
  | cons a rest ih => intro logs h; exact ih _ (hstep _ _ h)

theorem scan_eq_succ (g : Graph) (fuel : Nat) (sid : Nat) (path : Path)
    (logs : Logs) :
    scan g (fuel + 1) sid path logs =
      (g sid).children.foldl
        (fun acc e =>
          scan g fuel e.child
            (path ++ segsOfId (jsId (g e.child) e.source e.name e.path)) acc)
        (coreStep logs sid path) := rfl

theorem scan_mono (g : Graph) :
    ∀ (fuel : Nat) (s : Nat) (q : Path) (logs : Logs) (sid : Nat) (p : Path),
      p ∈ pathsOf logs sid → p ∈ pathsOf (scan g fuel s q logs) sid := by
  intro fuel
  induction fuel with
  | zero =>
    intro s q logs sid p h
    show p ∈ pathsOf (coreStep logs s q) sid
    rw [pathsOf_coreStep]
    by_cases ha : sid = s
    · subst ha
      by_cases hq : q = [] <;> simp [hq, h]
    · simp [ha, h]
  | succ fuel ih =>
    intro s q logs sid p h
    rw [scan_eq_succ]
    refine @foldl_preserve Edge (fun L => p ∈ pathsOf L sid)
      (fun acc e =>
        scan g fuel e.child
          (q ++ segsOfId (jsId (g e.child) e.source e.name e.path)) acc)
      (fun logs' e hm => ih _ _ _ _ _ hm) (g s).children (coreStep logs s q) ?_
    show p ∈ pathsOf (coreStep logs s q) sid
    rw [pathsOf_coreStep]
    by_cases ha : sid = s
    · subst ha
      by_cases hq : q = [] <;> simp [hq, h]
    · simp [ha, h]

theorem pathsOf_coreStep_self (logs : Logs) (s : Nat) (q : Path)
    (hq : q ≠ []) : q ∈ pathsOf (coreStep logs s q) s := by
  rw [pathsOf_coreStep]
  simp [hq]

theorem scan_records_self (g : Graph) (fuel : Nat) (s : Nat) (q : Path)
    (logs : Logs) (hq : q ≠ []) : q ∈ pathsOf (scan g fuel s q logs) s := by
  cases fuel with
  | zero => exact pathsOf_coreStep_self logs s q hq
  | succ fuel =>
    rw [scan_eq_succ]
    exact @foldl_preserve Edge (fun L => q ∈ pathsOf L s)
      (fun acc e =>
        scan g fuel e.child
          (q ++ segsOfId (jsId (g e.child) e.source e.name e.path)) acc)
      (fun logs' e hm => scan_mono g _ _ _ _ _ _ hm) (g s).children
      (coreStep logs s q) (pathsOf_coreStep_self logs s q hq)

theorem scan_keys_nodup (g : Graph) :
    ∀ (fuel : Nat) (s : Nat) (q : Path) (logs : Logs),
      (keys logs).Nodup → (keys (scan g fuel s q logs)).Nodup := by
  intro fuel
  induction fuel with
  | zero => intro s q logs h; exact keys_coreStep_nodup logs s q h
  | succ fuel ih =>
    intro s q logs h
    rw [scan_eq_succ]
    exact @foldl_preserve Edge (fun L => (keys L).Nodup)
      (fun acc e =>
        scan g fuel e.child
          (q ++ segsOfId (jsId (g e.child) e.source e.name e.path)) acc)
      (fun logs' e hm => ih _ _ _ hm) (g s).children (coreStep logs s q)
      (keys_coreStep_nodup logs s q h)

theorem scan_keys_isSome (g : Graph) :
    ∀ (fuel : Nat) (s : Nat) (q : Path) (logs : Logs) (a : Nat),
      (lookupKey a logs).isSome → (lookupKey a (scan g fuel s q logs)).isSome := by
  intro fuel
  induction fuel with
  | zero => intro s q logs a h; exact lookupKey_coreStep_isSome logs s q a h
  | succ fuel ih =>
    intro s q logs a h
    rw [scan_eq_succ]
    exact @foldl_preserve Edge (fun L => (lookupKey a L).isSome = true)
      (fun acc e =>
        scan g fuel e.child
          (q ++ segsOfId (jsId (g e.child) e.source e.name e.path)) acc)
      (fun logs' e hm => ih _ _ _ _ hm) (g s).children (coreStep logs s q)
      (lookupKey_coreStep_isSome logs s q a h)

theorem segsOfId_ne_nil (r : IdResult) : segsOfId r ≠ [] := by
  cases r with
  | str s => simp [segsOfId]
  | pair s n => cases n <;> simp [segsOfId]

theorem scan_complete (g : Graph) {s sid : Nat} {p : Path} {n : Nat}
    (hr : ReachesFrom g s sid p n) :
    ∀ (fuel : Nat) (q : Path) (logs : Logs), n ≤ fuel → q ++ p ≠ [] →
      (q ++ p) ∈ pathsOf (scan g fuel s q logs) sid := by
  induction hr with
  | refl s =>
    intro fuel q logs _ hq
    rw [List.append_nil] at hq ⊢
    exact scan_records_self g fuel s q logs hq
  | head e he hr ih =>
    intro fuel q logs hn hq
    cases fuel with
    | zero => omega
    | succ fuel =>
      rw [scan_eq_succ]
      obtain ⟨l1, l2, hch⟩ := List.append_of_mem he
      rw [hch, List.foldl_append, List.foldl_cons]
      rw [← List.append_assoc]
      refine @foldl_preserve Edge (fun L => _ ∈ pathsOf L _)
        (fun acc e' =>
          scan g fuel e'.child
            (q ++ segsOfId (jsId (g e'.child) e'.source e'.name e'.path)) acc)
        (fun logs' e' hm => scan_mono g _ _ _ _ _ _ hm) l2 _ ?_
      exact ih fuel _ _ (by omega) (by simp [segsOfId_ne_nil])

theorem pathsOf_coreStep_sound (logs : Logs) (s : Nat) (q : Path) (a : Nat)
    (p : Path) (h : p ∈ pathsOf (coreStep logs s q) a) :
    p ∈ pathsOf logs a ∨ (a = s ∧ p = q ∧ q ≠ []) := by
  rw [pathsOf_coreStep] at h
  by_cases ha : a = s
  · subst ha
    by_cases hq : q = []
    · rw [if_pos rfl, if_pos hq] at h
      exact Or.inl h
    · rw [if_pos rfl, if_neg hq] at h
      rcases List.mem_append.mp h with h' | h'
      · exact Or.inl h'
      · exact Or.inr ⟨rfl, List.mem_singleton.mp h', hq⟩
  · rw [if_neg ha] at h
    exact Or.inl h

theorem scan_sound (g : Graph) :
    ∀ (fuel s : Nat) (q : Path) (logs : Logs) (a : Nat) (p : Path),
      p ∈ pathsOf (scan g fuel s q logs) a →
      p ∈ pathsOf logs a ∨
        ∃ p' n, p = q ++ p' ∧ ReachesFrom g s a p' n ∧ n ≤ fuel ∧ p ≠ [] := by
  intro fuel
  induction fuel with
  | zero =>
    intro s q logs a p h
    rcases pathsOf_coreStep_sound logs s q a p h with h' | ⟨rfl, rfl, hq⟩
    · exact Or.inl h'
    · exact Or.inr ⟨[], 0, (List.append_nil p).symm, .refl a, Nat.le_refl 0, hq⟩
  | succ fuel ih =>
    intro s q logs a p h
    rw [scan_eq_succ] at h
    have hfold : ∀ (l : List Edge), (∀ e ∈ l, e ∈ (g s).children) →
        ∀ (L : Logs),
        p ∈ pathsOf
          (l.foldl (fun acc e =>
            scan g fuel e.child
              (q ++ segsOfId (jsId (g e.child) e.source e.name e.path)) acc) L)
          a →
        p ∈ pathsOf L a ∨
          ∃ p' n, p = q ++ p' ∧ ReachesFrom g s a p' n ∧ n ≤ fuel + 1 ∧
            p ≠ [] := by
      intro l
      induction l with
      | nil =>
        intro _ L hL
        exact Or.inl hL
      | cons e rest ihl =>
        intro hsub L hL
        rw [List.foldl_cons] at hL
        rcases ihl (fun e' he' => hsub e' (List.mem_cons_of_mem e he')) _ hL
          with hL' | hnew
        · rcases ih e.child
              (q ++ segsOfId (jsId (g e.child) e.source e.name e.path)) L a p
              hL' with hL'' | ⟨p'', n, hp, hr, hn, hne⟩
          · exact Or.inl hL''
          · refine Or.inr ⟨segsOfId (jsId (g e.child) e.source e.name e.path)
              ++ p'', n + 1, ?_, ?_, by omega, hne⟩
            · rw [hp, List.append_assoc]
            · exact .head e (hsub e (List.mem_cons_self e rest)) hr
        · exact Or.inr hnew
    rcases hfold (g s).children (fun e he => he) (coreStep logs s q) h
      with hc | hex
    · rcases pathsOf_coreStep_sound logs s q a p hc with h' | ⟨rfl, rfl, hq⟩
      · exact Or.inl h'
      · exact Or.inr ⟨[], 0, (List.append_nil p).symm, .refl a, by omega, hq⟩
    · exact Or.inr hex

/-! ### JS `Set` lemmas -/

theorem setAdd_mem (l : List Nat) (w v : Nat) :
    v ∈ setAdd l w ↔ v ∈ l ∨ v = w := by
  unfold setAdd
  by_cases h : w ∈ l
  · rw [if_pos h]
    constructor
    · exact Or.inl
    · rintro (hv | rfl)
      · exact hv
      · exact h
  · rw [if_neg h]
    simp

theorem setAdd_nodup (l : List Nat) (w : Nat) (h : l.Nodup) :
    (setAdd l w).Nodup := by
  unfold setAdd
  by_cases hw : w ∈ l
  · rwa [if_pos hw]
  · rw [if_neg hw]
    simp [List.nodup_append, h, hw]

theorem foldl_setAdd_mem (l : List Nat) :
    ∀ (init : List Nat) (v : Nat),
      v ∈ l.foldl setAdd init ↔ v ∈ init ∨ v ∈ l := by
  induction l with
  | nil => simp
  | cons a rest ih =>
    intro init v
    rw [List.foldl_cons, ih, setAdd_mem]
    constructor
    · rintro (h2 | h2)
      · rcases h2 with h3 | rfl
        · exact Or.inl h3
        · exact Or.inr (List.mem_cons_self _ _)
      · exact Or.inr (List.mem_cons_of_mem a h2)
    · rintro (h2 | h2)
      · exact Or.inl (Or.inl h2)
      · rcases List.mem_cons.mp h2 with rfl | h3
        · exact Or.inl (Or.inr rfl)
        · exact Or.inr h3

theorem jsSetOf_mem (l : List Nat) (v : Nat) : v ∈ jsSetOf l ↔ v ∈ l := by
  unfold jsSetOf
  rw [foldl_setAdd_mem]
  simp

theorem foldl_setAdd_nodup (l : List Nat) :
    ∀ (init : List Nat), init.Nodup → (l.foldl setAdd init).Nodup := by
  induction l with
  | nil => intro init h; exact h
  | cons a rest ih =>
    intro init h
    exact ih _ (setAdd_nodup init a h)

theorem jsSetOf_nodup (l : List Nat) : (jsSetOf l).Nodup :=
  foldl_setAdd_nodup l [] List.nodup_nil

theorem deleteAll_eq_filter (obs : List Nat) :
    ∀ (values : List Nat), values.Nodup →
      deleteAll obs values = values.filter (fun v => !decide (v ∈ obs)) := by
  induction obs with
  | nil =>
    intro values _
    simp [deleteAll]
  | cons a obs ih =>
    intro values h
    show deleteAll obs (values.erase a) = _
    rw [ih _ (h.erase a), h.erase_eq_filter a, List.filter_filter]
    apply List.filter_congr
    intro v _
    by_cases hva : v = a <;> by_cases hvo : v ∈ obs <;> simp [hva, hvo]

theorem deleteAll_mem (obs ds : List Nat) (v : Nat) :
    v ∈ deleteAll obs (jsSetOf ds) ↔ v ∈ ds ∧ v ∉ obs := by
  rw [deleteAll_eq_filter obs (jsSetOf ds) (jsSetOf_nodup ds)]
  rw [List.mem_filter]
  simp [jsSetOf_mem]

theorem deleteAll_congr (obs obs' ds : List Nat)
    (h : ∀ v, v ∈ obs ↔ v ∈ obs') :
    deleteAll obs (jsSetOf ds) = deleteAll obs' (jsSetOf ds) := by
  rw [deleteAll_eq_filter obs _ (jsSetOf_nodup ds),
    deleteAll_eq_filter obs' _ (jsSetOf_nodup ds)]
  apply List.filter_congr
  intro v _
  by_cases hv : v ∈ obs
  · simp [hv, (h v).mp hv]
  · have hv' : v ∉ obs' := fun h' => hv ((h v).mpr h')
    simp [hv, hv']

/-! ### Rule-map lemmas -/

theorem ruleGet_ruleOr (r : List (String × Nat)) (name : String) (code : Nat)
    (n : String) :
    ruleGet (ruleOr r name code) n =
      if n = name then ruleGet r name ||| code else ruleGet r n := by
  induction r with
  | nil =>
    by_cases hn : n = name <;> simp [ruleOr, ruleGet, hn]
  | cons p rest ih =>
    obtain ⟨k, m⟩ := p
    by_cases hk : name = k
    · subst hk
      by_cases hn : n = name <;> simp [ruleOr, ruleGet, hn]
    · by_cases hn : n = k
      · subst hn
        have : ¬n = name := fun h => hk h.symm
        simp [ruleOr, ruleGet, hk, this]
      · simp [ruleOr, ruleGet, hk, hn, ih]

/-! ### Report lemmas -/

theorem reportLoop_cons (g : Graph) (sid : Nat) (log : Log)
    (rest : List (Nat × Log)) (skipped : List Path) :
    reportLoop g ((sid, log) :: rest) skipped =
      if subMatch log.paths skipped then reportLoop g rest skipped
      else if !log.entry then
        .neverReached log.paths :: reportLoop g rest (skipped ++ log.paths)
      else
        valueItems (g sid) log ++ (rulesList (g sid)).filterMap (ruleItem log) ++
          reportLoop g rest skipped := rfl

theorem reportLoop_all_unreached (g : Graph) :
    ∀ (logs : List (Nat × Log)) (skipped : List Path),
      (∀ pr ∈ logs, pr.2.entry = false) →
      (∀ item ∈ reportLoop g logs skipped, ∃ ps, item = .neverReached ps) ∧
        (reportLoop g logs skipped).length ≤ logs.length := by
  intro logs
  induction logs with
  | nil =>
    intro skipped _
    exact ⟨by simp [reportLoop], by simp [reportLoop]⟩
  | cons pr rest ih =>
    intro skipped h
    obtain ⟨sid, log⟩ := pr
    have hrest : ∀ pr ∈ rest, pr.2.entry = false :=
      fun pr hpr => h pr (List.mem_cons_of_mem _ hpr)
    have hlog : log.entry = false := h (sid, log) (List.mem_cons_self _ _)
    rw [reportLoop_cons]
    by_cases hs : subMatch log.paths skipped = true
    · rw [if_pos hs]
      obtain ⟨h1, h2⟩ := ih skipped hrest
      exact ⟨h1, h2.trans (Nat.le_succ _)⟩
    · rw [if_neg hs, hlog]
      obtain ⟨h1, h2⟩ := ih (skipped ++ log.paths) hrest
      refine ⟨?_, ?_⟩
      · intro item hitem
        rcases List.mem_cons.mp hitem with rfl | hitem'
        · exact ⟨log.paths, rfl⟩
        · exact h1 item hitem'
      · simpa using Nat.succ_le_succ h2

/-- `reportMissing` on a single-log store whose node was reached. -/
theorem reportMissing_singleton_reached (g : Graph) (sid : Nat) (log : Log)
    (he : log.entry = true) :
    reportMissing g [(sid, log)] =
      valueItems (g sid) log ++ (rulesList (g sid)).filterMap (ruleItem log) := by
  unfold reportMissing reportLoop
  rw [he]
  simp [subMatch, reportLoop]

/-! ### Instrumentation monotonicity -/

/-- One log only gains information relative to another: identical paths, the
entry flag never reset, rule masks only gaining bits, observed-value sets
only growing. -/
def LogLe (l l' : Log) : Prop :=
  l.paths = l'.paths ∧
  (l.entry = true → l'.entry = true) ∧
  (∀ name k, (ruleGet l.rule name).testBit k → (ruleGet l'.rule name).testBit k) ∧
  (∀ v, v ∈ l.valid → v ∈ l'.valid) ∧
  (∀ v, v ∈ l.invalid → v ∈ l'.invalid)

/-- A store only gains information: same keys in the same order and
pointwise `LogLe`. -/
def LogsLe (a b : Logs) : Prop :=
  List.Forall₂ (fun p q => p.1 = q.1 ∧ LogLe p.2 q.2) a b

theorem LogLe.refl (l : Log) : LogLe l l :=
  ⟨rfl, id, fun _ _ h => h, fun _ h => h, fun _ h => h⟩

theorem logsLe_updateLog (logs : Logs) (sid : Nat) (f : Log → Log)
    (hf : ∀ l, LogLe l (f l)) : LogsLe logs (updateLog logs sid f) := by
  induction logs with
  | nil => exact List.Forall₂.nil
  | cons p rest ih =>
    obtain ⟨k, l⟩ := p
    rw [updateLog_cons]
    by_cases hk : k = sid
    · rw [if_pos hk]
      exact List.Forall₂.cons ⟨rfl, hf l⟩ ih
    · rw [if_neg hk]
      exact List.Forall₂.cons ⟨rfl, LogLe.refl l⟩ ih

theorem ruleOr_mask_mono (r : List (String × Nat)) (name : String)
    (code : Nat) (n : String) (k : Nat)
    (h : (ruleGet r n).testBit k) : (ruleGet (ruleOr r name code) n).testBit k := by
  rw [ruleGet_ruleOr]
  by_cases hn : n = name
  · rw [if_pos hn, Nat.testBit_or]
    subst hn
    simp [h]
  · rwa [if_neg hn]

/-! ### Claim theorems -/

/-- C5: `internals.id` resolves, in priority order, the explicit id flag
verbatim, then the internal key flag, then the synthesized `"@" + name`,
except that a `terms` source yields the pair `(synthesized name, path[1])`;
it is total, with no failure mode. -/
theorem id_resolution (schema : Node) (source name : String)
    (path : List Nat) :
    (∀ i, schema.flagId = some i → jsId schema source name path = .str i) ∧
    (schema.flagId = none → ∀ k, schema.flagKey = some k →
      jsId schema source name path = .str k) ∧
    (schema.flagId = none → schema.flagKey = none → source ≠ "terms" →
      jsId schema source name path = .str ("@" ++ name)) ∧
    (schema.flagId = none → schema.flagKey = none → source = "terms" →
      jsId schema source name path = .pair ("@" ++ name) path[1]?) := by
  refine ⟨?_, ?_, ?_, ?_⟩
  · intro i hi
    simp [jsId, hi]
  · intro h0 k hk
    simp [jsId, h0, hk]
  · intro h0 h1 hs
    simp [jsId, h0, h1, hs]
  · intro h0 h1 hs
    simp [jsId, h0, h1, hs]

theorem id_resolution_witness :
    jsId { flagId := some "me" } "keys" "a" [] = IdResult.str "me" :=
  (id_resolution { flagId := some "me" } "keys" "a" []).1 "me" rfl

/-- C2: for a reached node, each name in the checked rule list (declared
rules plus the `default`/`failover` pseudo-rules) is labeled from its
accumulated outcome mask: 0 ↦ "never used", 1 ↦ "always error",
2 ↦ "always pass", and mask 3 produces no gap. -/
theorem report_rule_outcome_labels (g : Graph) (sid : Nat) (log : Log)
    (name : String) (hv : (g sid).valids = none) (hi : (g sid).invalids = none)
    (hm : name ∈ rulesList (g sid)) (he : log.entry = true) :
    (ruleGet log.rule name = 0 →
      Item.ruleGap name "never used" (pathsOpt log) ∈
        reportMissing g [(sid, log)]) ∧
    (ruleGet log.rule name = 1 →
      Item.ruleGap name "always error" (pathsOpt log) ∈
        reportMissing g [(sid, log)]) ∧
    (ruleGet log.rule name = 2 →
      Item.ruleGap name "always pass" (pathsOpt log) ∈
        reportMissing g [(sid, log)]) ∧
    (ruleGet log.rule name = 3 →
      ∀ st pp, Item.ruleGap name st pp ∉ reportMissing g [(sid, log)]) := by
  have hrm : reportMissing g [(sid, log)] =
      (rulesList (g sid)).filterMap (ruleItem log) := by
    rw [reportMissing_singleton_reached g sid log he]
    simp [valueItems, valueItem, hv, hi]
  refine ⟨?_, ?_, ?_, ?_⟩
  · intro hmask
    rw [hrm]
    refine List.mem_filterMap.mpr ⟨name, hm, ?_⟩
    unfold ruleItem
    rw [hmask]
    simp [labels]
  · intro hmask
    rw [hrm]
    refine List.mem_filterMap.mpr ⟨name, hm, ?_⟩
    unfold ruleItem
    rw [hmask]
    simp [labels]
  · intro hmask
    rw [hrm]
    refine List.mem_filterMap.mpr ⟨name, hm, ?_⟩
    unfold ruleItem
    rw [hmask]
    simp [labels]
  · intro hmask st pp hmem
    rw [hrm] at hmem
    obtain ⟨a, _, hfa⟩ := List.mem_filterMap.mp hmem
    unfold ruleItem at hfa
    cases hlab : labels (ruleGet log.rule a) with
    | none =>
      rw [hlab] at hfa
      simp at hfa
    | some st' =>
      rw [hlab] at hfa
      have h2 : a = name ∧ st' = st ∧ pathsOpt log = pp := by simpa using hfa
      obtain ⟨rfl, -, -⟩ := h2
      rw [hmask] at hlab
      simp [labels] at hlab

theorem report_rule_outcome_labels_witness :
    Item.ruleGap "min" "always error"
        (pathsOpt ⟨[[Seg.str "@x"]], true, [("min", 1)], [], []⟩) ∈
      reportMissing (fun _ => { rules := ["min"] })
        [(0, ⟨[[Seg.str "@x"]], true, [("min", 1)], [], []⟩)] :=
  (report_rule_outcome_labels (fun _ => { rules := ["min"] }) 0
      ⟨[[Seg.str "@x"]], true, [("min", 1)], [], []⟩ "min" rfl rfl
      (by decide) rfl).2.1 rfl

/-- C4: for a reached node, the missing-values gap of each declared literal
category is exactly the declared set minus the observed set — membership in
the reported list coincides with "declared and never observed", the result
depends on the observed set only through membership (so it is independent of
observation order and duplicates), and no gap is emitted when the
difference is empty. -/
theorem report_missing_value_gaps (g : Graph) (sid : Nat) (log : Log)
    (ds es : List Nat) (hv : (g sid).valids = some ds)
    (hi : (g sid).invalids = some es) (he : log.entry = true) :
    (deleteAll log.valid (jsSetOf ds) ≠ [] →
      Item.values (deleteAll log.valid (jsSetOf ds)) "valids" ∈
        reportMissing g [(sid, log)]) ∧
    (deleteAll log.valid (jsSetOf ds) = [] →
      ∀ vs, Item.values vs "valids" ∉ reportMissing g [(sid, log)]) ∧
    (∀ v, v ∈ deleteAll log.valid (jsSetOf ds) ↔ v ∈ ds ∧ v ∉ log.valid) ∧
    (∀ obs', (∀ v, v ∈ obs' ↔ v ∈ log.valid) →
      deleteAll obs' (jsSetOf ds) = deleteAll log.valid (jsSetOf ds)) ∧
    (deleteAll log.invalid (jsSetOf es) ≠ [] →
      Item.values (deleteAll log.invalid (jsSetOf es)) "invalids" ∈
        reportMissing g [(sid, log)]) ∧
    (deleteAll log.invalid (jsSetOf es) = [] →
      ∀ vs, Item.values vs "invalids" ∉ reportMissing g [(sid, log)]) ∧
    (∀ v, v ∈ deleteAll log.invalid (jsSetOf es) ↔ v ∈ es ∧ v ∉ log.invalid) := by
  have hrm : reportMissing g [(sid, log)] =
      valueItem (some ds) log.valid "valids" ++
        (valueItem (some es) log.invalid "invalids" ++
          (rulesList (g sid)).filterMap (ruleItem log)) := by
    rw [reportMissing_singleton_reached g sid log he]
    simp [valueItems, hv, hi]
  have hnotrule : ∀ vs rl,
      Item.values vs rl ∉ (rulesList (g sid)).filterMap (ruleItem log) := by
    intro vs rl hmem
    obtain ⟨a, _, hfa⟩ := List.mem_filterMap.mp hmem
    unfold ruleItem at hfa
    cases hlab : labels (ruleGet log.rule a) <;> rw [hlab] at hfa <;>
      simp at hfa
  refine ⟨?_, ?_, ?_, ?_, ?_, ?_, ?_⟩
  · intro hne
    rw [hrm]
    refine List.mem_append.mpr (Or.inl ?_)
    simp only [valueItem]
    rw [if_neg hne]
    exact List.mem_singleton.mpr rfl
  · intro hemp vs hmem
    rw [hrm] at hmem
    rcases List.mem_append.mp hmem with h1 | h1
    · simp only [valueItem] at h1
      rw [if_pos hemp] at h1
      simp at h1
    · rcases List.mem_append.mp h1 with h2 | h2
      · simp only [valueItem] at h2
        by_cases hemp' : deleteAll log.invalid (jsSetOf es) = []
        · rw [if_pos hemp'] at h2
          simp at h2
        · rw [if_neg hemp'] at h2
          have := List.mem_singleton.mp h2
          simp [Item.values.injEq] at this
      · exact hnotrule vs "valids" h2
  · exact deleteAll_mem log.valid ds
  · intro obs' hobs
    exact deleteAll_congr obs' log.valid ds hobs
  · intro hne
    rw [hrm]
    refine List.mem_append.mpr (Or.inr (List.mem_append.mpr (Or.inl ?_)))
    simp only [valueItem]
    rw [if_neg hne]
    exact List.mem_singleton.mpr rfl
  · intro hemp vs hmem
    rw [hrm] at hmem
    rcases List.mem_append.mp hmem with h1 | h1
    · simp only [valueItem] at h1
      by_cases hemp' : deleteAll log.valid (jsSetOf ds) = []
      · rw [if_pos hemp'] at h1
        simp at h1
      · rw [if_neg hemp'] at h1
        have := List.mem_singleton.mp h1
        simp [Item.values.injEq] at this
    · rcases List.mem_append.mp h1 with h2 | h2
      · simp only [valueItem] at h2
        rw [if_pos hemp] at h2
        simp at h2
      · exact hnotrule vs "invalids" h2
  · exact deleteAll_mem log.invalid es

theorem report_missing_value_gaps_witness :
    deleteAll [1] (jsSetOf [1, 2]) = [2] ∧
      Item.values (deleteAll [1] (jsSetOf [1, 2])) "valids" ∈
        reportMissing (fun _ => { valids := some [1, 2], invalids := some [] })
          [(0, ⟨[], true, [], [1], []⟩)] :=
  ⟨by decide,
    (report_missing_value_gaps
        (fun _ => { valids := some [1, 2], invalids := some [] }) 0
        ⟨[], true, [], [1], []⟩ [1, 2] [] rfl rfl rfl).1 (by decide)⟩

/-- C1: with zero validation runs (every log's entry flag still false),
every item `report` emits is a "never reached" gap — in particular no rule
or value gap for any node, including those whose paths extend a skipped
ancestor — at most one item is emitted per log, and in the concrete
nested-object scenario the inner node is suppressed entirely in favour of
the topmost unreached ancestor's single entry. -/
theorem report_zero_runs_never_reached (g : Graph) (logs : Logs)
    (h : ∀ pr ∈ logs, pr.2.entry = false) :
    (∀ item ∈ reportMissing g logs, ∃ ps, item = Item.neverReached ps) ∧
    (reportMissing g logs).length ≤ logs.length ∧
    reportMissing gNest (scanLogs gNest 3 0) =
      [Item.neverReached [], Item.neverReached [[Seg.str "@a"]]] := by
  obtain ⟨h1, h2⟩ := reportLoop_all_unreached g logs [] h
  exact ⟨h1, h2, by decide⟩

theorem report_zero_runs_never_reached_witness :
    (∀ item ∈ reportMissing gNest (scanLogs gNest 3 0),
      ∃ ps, item = Item.neverReached ps) ∧
    (reportMissing gNest (scanLogs gNest 3 0)).length ≤
      (scanLogs gNest 3 0).length ∧
    reportMissing gNest (scanLogs gNest 3 0) =
      [Item.neverReached [], Item.neverReached [[Seg.str "@a"]]] :=
  report_zero_runs_never_reached gNest (scanLogs gNest 3 0) (by decide)

/-! ### Remaining helpers -/

theorem foldl_preserve_mem {α : Type} {P : Logs → Prop}
    (step : Logs → α → Logs) :
    ∀ (l : List α), (∀ logs a, a ∈ l → P logs → P (step logs a)) →
      ∀ (logs : Logs), P logs → P (l.foldl step logs) := by
  intro l
  induction l with
  | nil => intro _ logs h; exact h
  | cons a rest ih =>
    intro hstep logs h
    exact ih (fun logs' a' ha' hp => hstep logs' a' (List.mem_cons_of_mem a ha') hp)
      _ (hstep logs a (List.mem_cons_self a rest) h)

theorem mem_keys_of_isSome {β : Type} (l : List (Nat × β)) (a : Nat)
    (h : (lookupKey a l).isSome) : a ∈ keys l := by
  by_contra hc
  rw [← lookupKey_eq_none_iff] at hc
  rw [hc] at h
  simp at h

theorem mem_keys_of_pathsOf {logs : Logs} {sid : Nat} {p : Path}
    (h : p ∈ pathsOf logs sid) : sid ∈ keys logs := by
  unfold pathsOf at h
  cases hl : lookupKey sid logs with
  | none =>
    rw [hl] at h
    simp at h
  | some l => exact mem_keys_of_isSome _ _ (by simp [hl])

theorem scan_root_isSome (g : Graph) (fuel root : Nat) :
    (lookupKey root (scanLogs g fuel root)).isSome := by
  have hbase : (lookupKey root (coreStep ([] : Logs) root [])).isSome := by
    rw [coreStep_eq, if_pos rfl, lookupKey_ensureLog, if_pos rfl]
    simp
  unfold scanLogs
  cases fuel with
  | zero => exact hbase
  | succ fuel =>
    rw [scan_eq_succ]
    exact @foldl_preserve_mem Edge
      (fun L => (lookupKey root L).isSome = true) _ (g root).children
      (fun L e _ hP => scan_keys_isSome g fuel e.child _ L root hP) _ hbase

theorem scan_pathsOf_other (g : Graph) (root : Nat)
    (hroot : ∀ n e, e ∈ (g n).children → e.child ≠ root) :
    ∀ (fuel s : Nat) (q : Path) (logs : Logs), s ≠ root →
      pathsOf (scan g fuel s q logs) root = pathsOf logs root := by
  intro fuel
  induction fuel with
  | zero =>
    intro s q logs hs
    show pathsOf (coreStep logs s q) root = _
    rw [pathsOf_coreStep, if_neg (fun h => hs h.symm)]
  | succ fuel ih =>
    intro s q logs hs
    rw [scan_eq_succ]
    have hcore : pathsOf (coreStep logs s q) root = pathsOf logs root := by
      rw [pathsOf_coreStep, if_neg (fun h => hs h.symm)]
    exact @foldl_preserve_mem Edge
      (fun L => pathsOf L root = pathsOf logs root) _ (g s).children
      (fun L e he hP =>
        (ih e.child (q ++ segsOfId (jsId (g e.child) e.source e.name e.path))
          L (hroot s e he)).trans hP)
      _ hcore

theorem report_eq (g : Graph) (tr : Tracer) (file : Option String) :
    report g tr file =
      (if (tr.filterMap fun pr =>
            if matchesFile file pr.2.filename then
              recordOf g pr.2.filename pr.2.line pr.2.store
            else none) = [] then none
       else some (tr.filterMap fun pr =>
            if matchesFile file pr.2.filename then
              recordOf g pr.2.filename pr.2.line pr.2.store
            else none)) := rfl

theorem recordOf_eq (g : Graph) (fn : String) (ln : Nat) (store : Logs) :
    recordOf g fn ln store =
      if reportMissing g store = [] then none
      else some ⟨fn, ln, reportMissing g store, "error",
        "Schema missing tests for " ++
          String.intercalate ", " ((reportMissing g store).map message)⟩ := rfl

theorem length_filterMap_eq_length_filter {α β : Type} (f : α → Option β) :
    ∀ (l : List α),
      (l.filterMap f).length = (l.filter fun a => (f a).isSome).length := by
  intro l
  induction l with
  | nil => rfl
  | cons a rest ih =>
    cases hf : f a <;>
      simp [List.filterMap_cons, hf, List.filter_cons, ih]

/-- C3: the static scan stores coverage logs keyed by node identity: the key
list is duplicate-free (exactly one log per node, two nodes never share
one), the root and every node reachable within the fuel bound has a log,
and a path is recorded in a node's log precisely when it is a non-empty
structural route from the root to that node. -/
theorem scan_single_log_per_node (g : Graph) (fuel root : Nat) :
    (keys (scanLogs g fuel root)).Nodup ∧
    root ∈ keys (scanLogs g fuel root) ∧
    (∀ sid, (∃ p n, p ≠ [] ∧ n ≤ fuel ∧ ReachesFrom g root sid p n) →
      sid ∈ keys (scanLogs g fuel root)) ∧
    (∀ sid p, p ∈ pathsOf (scanLogs g fuel root) sid ↔
      (p ≠ [] ∧ ∃ n, n ≤ fuel ∧ ReachesFrom g root sid p n)) := by
  have hiff : ∀ sid p, p ∈ pathsOf (scanLogs g fuel root) sid ↔
      (p ≠ [] ∧ ∃ n, n ≤ fuel ∧ ReachesFrom g root sid p n) := by
    intro sid p
    constructor
    · intro h
      rcases scan_sound g fuel root [] [] sid p h with h' | ⟨p', n, hp, hr, hn, hne⟩
      · simp [pathsOf, lookupKey] at h'
      · rw [List.nil_append] at hp
        subst hp
        exact ⟨hne, n, hn, hr⟩
    · rintro ⟨hne, n, hn, hr⟩
      have := scan_complete g hr fuel [] [] hn (by simpa using hne)
      simpa using this
  refine ⟨?_, ?_, ?_, hiff⟩
  · exact scan_keys_nodup g fuel root [] [] (by simp [keys])
  · exact mem_keys_of_isSome _ _ (scan_root_isSome g fuel root)
  · rintro sid ⟨p, n, hne, hn, hr⟩
    exact mem_keys_of_pathsOf ((hiff sid p).mpr ⟨hne, n, hn, hr⟩)

theorem scan_single_log_per_node_witness :
    ([Seg.str "@a", Seg.str "@c"] : Path) ∈ pathsOf (scanLogs gDiamond 3 0) 3 ∧
    (keys (scanLogs gDiamond 3 0)).Nodup := by
  constructor
  · refine ((scan_single_log_per_node gDiamond 3 0).2.2.2 3 _).mpr
      ⟨by decide, 2, by omega, ?_⟩
    have hr3 : ReachesFrom gDiamond 3 3 [] 0 := ReachesFrom.refl 3
    have h1 : ReachesFrom gDiamond 1 3
        (segsOfId (jsId (gDiamond 3) "keys" "c" []) ++ []) 1 :=
      ReachesFrom.head ⟨3, "keys", "c", []⟩ (by decide) hr3
    have h2 : ReachesFrom gDiamond 0 3
        (segsOfId (jsId (gDiamond 1) "keys" "a" []) ++
          (segsOfId (jsId (gDiamond 3) "keys" "c" []) ++ [])) 2 :=
      ReachesFrom.head ⟨1, "keys", "a", []⟩ (by decide) h1
    have heq : segsOfId (jsId (gDiamond 1) "keys" "a" []) ++
        (segsOfId (jsId (gDiamond 3) "keys" "c" []) ++ []) =
        [Seg.str "@a", Seg.str "@c"] := by decide
    exact heq ▸ h2
  · exact (scan_single_log_per_node gDiamond 3 0).1

/-- C6 counterexample: in `gDup` the shared node 1 (explicit id `x`,
reachable under the two keys `a` and `b` of the root) records the
structurally identical path `[x]` twice — `log.paths.add` always receives a
freshly allocated array, so the JS `Set` never deduplicates structurally
equal paths and the claimed "exactly one copy of each distinct Path" fails. -/
theorem scan_paths_not_dedup_cex :
    pathsOf (scanLogs gDup 2 0) 1 = [[Seg.str "x"], [Seg.str "x"]] ∧
    (pathsOf (scanLogs gDup 2 0) 1).count [Seg.str "x"] = 2 ∧
    ¬ (pathsOf (scanLogs gDup 2 0) 1).Nodup := by
  refine ⟨by decide, by decide, by decide⟩

/-- C6 amended: after scanning, the root's own log has an empty paths set
whenever the root is not itself any node's child (the acyclic use the scan
assumes), and a node's paths set records one entry per reaching route in
scan order — structurally equal paths from distinct routes each appear,
since the JS `Set` deduplicates only by object identity and every recorded
path array is freshly allocated. -/
theorem scan_paths_root_empty_one_per_route (g : Graph) (fuel root : Nat)
    (hroot : ∀ n e, e ∈ (g n).children → e.child ≠ root) :
    pathsOf (scanLogs g fuel root) root = [] ∧
    pathsOf (scanLogs gDup 2 0) 1 = [[Seg.str "x"], [Seg.str "x"]] := by
  refine ⟨?_, by decide⟩
  have hbase : pathsOf (coreStep ([] : Logs) root []) root = [] := by
    rw [pathsOf_coreStep, if_pos rfl, if_pos rfl]
    simp [pathsOf, lookupKey]
  unfold scanLogs
  cases fuel with
  | zero => exact hbase
  | succ fuel =>
    rw [scan_eq_succ]
    exact @foldl_preserve_mem Edge (fun L => pathsOf L root = []) _
      (g root).children
      (fun L e he hP =>
        (scan_pathsOf_other g root hroot fuel e.child _ L
          (hroot root e he)).trans hP)
      _ hbase

theorem scan_paths_root_empty_one_per_route_witness :
    pathsOf (scanLogs gDup 2 0) 0 = [] ∧
    pathsOf (scanLogs gDup 2 0) 1 = [[Seg.str "x"], [Seg.str "x"]] := by
  refine scan_paths_root_empty_one_per_route gDup 2 0 ?_
  intro n e he
  by_cases hn : n = 0
  · subst hn
    have : e = ⟨1, "keys", "a", []⟩ ∨ e = ⟨1, "keys", "b", []⟩ := by
      simpa [gDup] using he
    rcases this with rfl | rfl <;> decide
  · by_cases hn1 : n = 1
    · subst hn1
      simp [gDup] at he
    · simp [gDup, hn, hn1] at he

/-- C7: `report` returns `none` exactly when no registered store matching
the optional filename filter produced any gap; otherwise it returns a
non-empty list with one record per store with gaps, each carrying severity
`"error"` and a non-empty missing list — full coverage is signalled by the
`none` result, never by a failure. -/
theorem report_null_signals_full_coverage (g : Graph) (tr : Tracer)
    (file : Option String) :
    (report g tr file = none ↔
      ∀ pr ∈ tr, matchesFile file pr.2.filename = true →
        reportMissing g pr.2.store = []) ∧
    (∀ l, report g tr file = some l → l ≠ [] ∧
      ∀ r ∈ l, r.severity = "error" ∧ r.missing ≠ []) ∧
    (∀ l, report g tr file = some l →
      l.length = (tr.filter fun pr => matchesFile file pr.2.filename &&
        !decide (reportMissing g pr.2.store = [])).length) := by
  have hstep : ∀ pr : Nat × SchemaEntry,
      ((if matchesFile file pr.2.filename then
          recordOf g pr.2.filename pr.2.line pr.2.store
        else none) = none) ↔
      (matchesFile file pr.2.filename = true →
        reportMissing g pr.2.store = []) := by
    intro pr
    by_cases hm : matchesFile file pr.2.filename = true
    · rw [if_pos hm, recordOf_eq]
      by_cases hmiss : reportMissing g pr.2.store = []
      · simp [hmiss]
      · simp [hmiss, hm]
    · rw [if_neg hm]
      simp [hm]
  refine ⟨?_, ?_, ?_⟩
  · constructor
    · intro h pr hpr hmat
      rw [report_eq] at h
      split at h
      · next hcov =>
        have := List.filterMap_eq_nil_iff.mp hcov pr hpr
        exact ((hstep pr).mp this) hmat
      · exact absurd h (by simp)
    · intro hall
      rw [report_eq]
      have hcov : (tr.filterMap fun pr =>
          if matchesFile file pr.2.filename then
            recordOf g pr.2.filename pr.2.line pr.2.store
          else none) = [] :=
        List.filterMap_eq_nil_iff.mpr fun pr hpr =>
          (hstep pr).mpr (hall pr hpr)
      rw [if_pos hcov]
  · intro l hl
    rw [report_eq] at hl
    split at hl
    · exact absurd hl (by simp)
    · next hcov =>
      obtain rfl := Option.some.inj hl
      refine ⟨hcov, ?_⟩
      intro r hr
      obtain ⟨pr, _, hpr⟩ := List.mem_filterMap.mp hr
      by_cases hm : matchesFile file pr.2.filename = true
      · rw [if_pos hm, recordOf_eq] at hpr
        by_cases hmiss : reportMissing g pr.2.store = []
        · rw [if_pos hmiss] at hpr
          exact absurd hpr (by simp)
        · rw [if_neg hmiss] at hpr
          obtain rfl := Option.some.inj hpr
          exact ⟨rfl, hmiss⟩
      · rw [if_neg hm] at hpr
        exact absurd hpr (by simp)
  · intro l hl
    rw [report_eq] at hl
    split at hl
    · exact absurd hl (by simp)
    · obtain rfl := Option.some.inj hl
      rw [length_filterMap_eq_length_filter]
      congr 1
      apply List.filter_congr
      intro pr _
      by_cases hm : matchesFile file pr.2.filename = true
      · rw [if_pos hm, recordOf_eq]
        by_cases hmiss : reportMissing g pr.2.store = [] <;>
          simp [hmiss, hm]
      · rw [if_neg hm]
        simp [hm]

theorem report_null_signals_full_coverage_witness :
    report gNest ([] : Tracer) none = none :=
  (report_null_signals_full_coverage gNest [] none).1.mpr (by simp)

/-- C8: `report` is a pure function of the current registry and store
state — the explicitly threaded state comes back unchanged (the source
mutates only call-local data: `coverage`, `missing`, `skipped`, and the
`new Set` copy that `values.delete` acts on), so two consecutive calls with
no intervening mutation return structurally identical results. -/
theorem report_pure_idempotent (g : Graph) (tr : Tracer)
    (file : Option String) :
    (reportRun g tr file).2 = tr ∧
    (reportRun g tr file).1 = (reportRun g (reportRun g tr file).2 file).1 :=
  ⟨rfl, rfl⟩

/-- C9: a first registration of a root builds its store by a single full
static scan and appends it to the registry; registering the same root again
returns that stored store and leaves the registry unchanged — no rebuild or
re-scan happens. -/
theorem register_idempotent (g : Graph) (fuel : Nat) (tr : Tracer)
    (root : Nat) (fn fn' : String) (ln ln' : Nat) :
    (lookupKey root tr = none →
      (register g fuel tr root fn ln).1 = scanLogs g fuel root ∧
      (register g fuel tr root fn ln).2 =
        tr ++ [(root, ⟨fn, ln, scanLogs g fuel root⟩)]) ∧
    ((register g fuel (register g fuel tr root fn ln).2 root fn' ln').1 =
        (register g fuel tr root fn ln).1 ∧
      (register g fuel (register g fuel tr root fn ln).2 root fn' ln').2 =
        (register g fuel tr root fn ln).2) := by
  constructor
  · intro h
    unfold register
    rw [h]
    exact ⟨rfl, rfl⟩
  · cases h : lookupKey root tr with
    | some e =>
      have h1 : register g fuel tr root fn ln = (e.store, tr) := by
        unfold register
        rw [h]
      have h2 : register g fuel tr root fn' ln' = (e.store, tr) := by
        unfold register
        rw [h]
      rw [h1, h2]
      exact ⟨rfl, rfl⟩
    | none =>
      have h1 : register g fuel tr root fn ln =
          (scanLogs g fuel root,
            tr ++ [(root, ⟨fn, ln, scanLogs g fuel root⟩)]) := by
        unfold register
        rw [h]
      have hl : lookupKey root
          (tr ++ [(root, (⟨fn, ln, scanLogs g fuel root⟩ : SchemaEntry))]) =
          some ⟨fn, ln, scanLogs g fuel root⟩ := by
        rw [lookupKey_append_of_none _ _ _ h]
        simp [lookupKey]
      have h2 : register g fuel
          (tr ++ [(root, ⟨fn, ln, scanLogs g fuel root⟩)]) root fn' ln' =
          (scanLogs g fuel root,
            tr ++ [(root, ⟨fn, ln, scanLogs g fuel root⟩)]) := by
        unfold register
        rw [hl]
      rw [h1, h2]
      exact ⟨rfl, rfl⟩

theorem register_idempotent_witness :
    (register gNest 3 [] 0 "f.js" 1).1 = scanLogs gNest 3 0 ∧
    (register gNest 3 [] 0 "f.js" 1).2 =
      [] ++ [(0, ⟨"f.js", 1, scanLogs gNest 3 0⟩)] :=
  (register_idempotent gNest 3 [] 0 "f.js" "g.js" 1 2).1 rfl

/-- C10: the three instrumentation mutations only accumulate: each leaves
the key list and every log's paths unchanged, never resets an entry flag,
only ORs bits into rule masks, and only grows the observed-value sets; in
particular `entry` sets the target node's flag to true. -/
theorem instrumentation_monotone (logs : Logs) (sid : Nat)
    (name result source : String) (v : Nat) :
    LogsLe logs (Store.entry logs sid) ∧
    LogsLe logs (Store.log logs name result sid) ∧
    LogsLe logs (Store.value logs source v sid) ∧
    (∀ l, lookupKey sid logs = some l →
      lookupKey sid (Store.entry logs sid) = some { l with entry := true }) := by
  refine ⟨?_, ?_, ?_, ?_⟩
  · exact logsLe_updateLog logs sid _
      (fun l => ⟨rfl, fun _ => rfl, fun n k h => h, fun _ h => h, fun _ h => h⟩)
  · exact logsLe_updateLog logs sid _
      (fun l => ⟨rfl, fun h => h,
        fun n k h => ruleOr_mask_mono l.rule name (codes result) n k h,
        fun _ h => h, fun _ h => h⟩)
  · refine logsLe_updateLog logs sid _ (fun l => ?_)
    by_cases h1 : source = "valid"
    · rw [if_pos h1]
      exact ⟨rfl, fun h => h, fun n k h => h,
        fun w hw => (setAdd_mem l.valid v w).mpr (Or.inl hw), fun _ h => h⟩
    · rw [if_neg h1]
      by_cases h2 : source = "invalid"
      · rw [if_pos h2]
        exact ⟨rfl, fun h => h, fun n k h => h, fun _ h => h,
          fun w hw => (setAdd_mem l.invalid v w).mpr (Or.inl hw)⟩
      · rw [if_neg h2]
        exact LogLe.refl l
  · intro l hl
    show lookupKey sid (updateLog logs sid _) = _
    rw [lookupKey_updateLog]
    simp [hl]

theorem instrumentation_monotone_witness :
    lookupKey 0 (Store.entry [(0, Log.init)] 0) =
      some { Log.init with entry := true } :=
  (instrumentation_monotone [(0, Log.init)] 0 "r" "error" "valid" 5).2.2.2
    Log.init rfl

end Trace

